import Mathlib

/-!
Verification of the byte-level Huffman codec (huff.c, list.c).

The development shallowly embeds the C sources:

* `data_t` mirrors the `data_t` struct of list.h (symbol byte, frequency
  count).  The C `int freq` only ever holds nonnegative occurrence counts
  (bounded by the 4-GiB file-length cap), so it is modelled as `Nat`.
* The doubly linked list of list.c is modelled by its contents, a
  `List data_t` (respectively a `List hnode` once tree construction
  starts); `list_insert`, `list_remove`, `merge_sort` and `list_sort`
  operate on that contents list.
* During the tree phase, each list element is a node carrying a
  `data_t` and two optional children.  list.c's merge sort physically
  moves `data_ptr`s between freed and freshly allocated node blocks, and
  the program relies on the allocator returning the just-freed block so
  that the `left`/`right` fields travel with the data; the embedding
  models the effective behaviour: sorting permutes whole nodes.
* File reads are modelled on `List Nat` (byte values); C's `feof`
  becomes the end of the list, and the one-iteration-late EOF detection
  of the `while (!feof(...))` loops is translated literally.
* Functions whose C behaviour is undefined on some input (unterminated
  code-table lookup, uninitialized reads) return `Option` and yield
  `none` there; the decoder's unbounded `while` loop takes fuel and
  yields `none` when the fuel runs out.
-/

/-- The `data_t` struct of list.h: one symbol byte plus its frequency. -/
structure data_t where
  sym : Nat
  freq : Nat
deriving DecidableEq, Repr

/-- `compare` from huff.c: orders by symbol value only (equality probe). -/
def compare (a b : data_t) : Int :=
  if a.sym < b.sym then 1
  else if b.sym < a.sym then -1
  else 0

/-- `compare_freq` from huff.c: orders by frequency, ties by symbol value. -/
def compare_freq (a b : data_t) : Int :=
  if a.freq < b.freq then 1
  else if b.freq < a.freq then -1
  else
    if a.sym < b.sym then 1
    else if b.sym < a.sym then -1
    else 0

/-- The merge phase of `merge_sort` in list.c: repeatedly take the head of
whichever sublist's head compares not-lower (comparator result `≠ -1`),
preferring the left sublist.  (For the program's comparators the two guards
`cmp l r ≠ -1` and `cmp r l ≠ -1` are never both false.) -/
def merge (cmp : α → α → Int) : List α → List α → List α
  | [], r => r
  | l, [] => l
  | a :: l, b :: r =>
    if cmp a b ≠ -1 then a :: merge cmp l (b :: r)
    else b :: merge cmp (a :: l) r

/-- `merge_sort` from list.c: split the first `size / 2` elements into the
left sublist, the rest into the right sublist, sort each recursively and
merge.  Lists of size at most one are returned unchanged. -/
def merge_sort (cmp : α → α → Int) (l : List α) : List α :=
  if h : l.length ≤ 1 then l
  else
    merge cmp (merge_sort cmp (l.take (l.length / 2)))
      (merge_sort cmp (l.drop (l.length / 2)))
termination_by l.length
decreasing_by
  · simp only [List.length_take]
    omega
  · simp only [List.length_drop]
    omega

/-- `list_sort` from list.c applied to the symbol collection: every list in
huff.c is constructed with `compare_freq` as its sorting comparator. -/
def list_sort (l : List data_t) : List data_t :=
  merge_sort compare_freq l

/-- `list_insert(list, elem, list_iter_back(list))` as used by `calc_freq`
and `read_freq_table`: insert in front of the tail iterator.  For an empty
list the iterator is NULL and the element becomes the only node; for a
singleton the tail is also the head and the element is inserted at the
front; otherwise the element lands just before the last node. -/
def insert_before_tail : List α → α → List α
  | [], x => [x]
  | [a], x => [x, a]
  | a :: rest, x => a :: insert_before_tail rest x

/-- `list_remove` from list.c on the contents list.  The iterator is
`none` for NULL or `some i` for a pointer to the `i`-th node.  An empty
list returns NULL and is left unchanged; a singleton always loses its head;
otherwise a NULL iterator removes the tail and a valid iterator removes the
addressed node. -/
def list_remove (l : List α) (idx : Option Nat) : Option α × List α :=
  match l, idx with
  | [], _ => (none, [])
  | [a], _ => (some a, [])
  | l, none => (l.getLast?, l.dropLast)
  | l, some i => (l[i]?, l.eraseIdx i)

/-- The frequency-increment branch of `calc_freq`: find the first entry for
symbol `b` (`list_elem_find` with `compare`) and bump its count in place. -/
def incr_first : List data_t → Nat → Option (List data_t)
  | [], _ => none
  | d :: rest, b =>
    if d.sym = b then some ({ d with freq := d.freq + 1 } :: rest)
    else (incr_first rest b).map (d :: ·)

/-- One tally step of `calc_freq`: bump the existing entry for symbol `b`,
or insert a fresh entry of frequency 1 before the tail. -/
def tally (l : List data_t) (b : Nat) : List data_t :=
  match incr_first l b with
  | some l2 => l2
  | none => insert_before_tail l ⟨b, 1⟩

/-- The `while (!feof(fpt))` loop of `calc_freq`.  Reading the final byte
does not raise EOF, so the loop always runs one extra iteration in which
`fread` fails, the freshly `calloc`ed symbol stays 0, the length is not
incremented, and symbol 0 is tallied anyway. -/
def calc_freq_loop : List Nat → List data_t → Nat → List data_t × Nat
  | [], l, len => (tally l 0, len)
  | b :: rest, l, len => calc_freq_loop rest (tally l b) (len + 1)

/-- `calc_freq` from huff.c: frequency table and byte count of the input. -/
def calc_freq (input : List Nat) : List data_t × Nat :=
  calc_freq_loop input [] 0

/-- The four bytes `fwrite(&x, 1, 4, fpt)` emits for a 32-bit value on the
little-endian reference platform. -/
def le4 (n : Nat) : List Nat :=
  [n % 256, n / 256 % 256, n / 65536 % 256, n / 16777216 % 256]

/-- `store_freq_table` from huff.c: one 1-byte symbol plus 4-byte frequency
per entry in list order, a zero-frequency sentinel entry, then the 4-byte
original file length. -/
def store_freq_table : List data_t → Nat → List Nat
  | [], len => (0 :: le4 0) ++ le4 len
  | d :: rest, len => (d.sym :: le4 d.freq) ++ store_freq_table rest len

/-- The header-reading loop of `read_freq_table`: read a symbol byte and a
4-byte frequency; a zero frequency terminates the table, anything else is a
real entry inserted before the tail.  Running out of bytes mid-entry is a
malformed archive (`none`). -/
def read_freq_loop : List Nat → List data_t → Option (List data_t × List Nat)
  | s :: b0 :: b1 :: b2 :: b3 :: rest, l =>
    let f := b0 + 256 * b1 + 65536 * b2 + 16777216 * b3
    if f = 0 then some (l, rest)
    else read_freq_loop rest (insert_before_tail l ⟨s, f⟩)
  | _, _ => none

/-- `read_freq_table` from huff.c: parse the entry list, read the 4-byte
original length, sort the recovered collection, and hand back the remaining
bitstream bytes. -/
def read_freq_table (bytes : List Nat) : Option (List data_t × Nat × List Nat) :=
  match read_freq_loop bytes [] with
  | some (l, c0 :: c1 :: c2 :: c3 :: rest) =>
    some (list_sort l, c0 + 256 * c1 + 65536 * c2 + 16777216 * c3, rest)
  | _ => none

/-- A node of the Huffman tree: `huff.c` builds nodes that either carry no
children (leaves holding a counted symbol) or exactly two children (the
internal nodes created by `build_tree`, whose `calloc`ed data has symbol 0
and the synthesized frequency). -/
inductive hnode where
  | leaf (d : data_t)
  | node (d : data_t) (left right : hnode)
deriving DecidableEq, Repr

/-- The `data_ptr` of a tree node. -/
def hnode.data : hnode → data_t
  | .leaf d => d
  | .node d _ _ => d

/-- The `left` child pointer of a tree node. -/
def hnode.leftChild : hnode → Option hnode
  | .leaf _ => none
  | .node _ l _ => some l

/-- The `right` child pointer of a tree node. -/
def hnode.rightChild : hnode → Option hnode
  | .leaf _ => none
  | .node _ _ r => some r

/-- `list_sort` on the active collection of tree roots: the comparator is
`compare_freq` applied to each node's `data_ptr`. -/
def sort_nodes (l : List hnode) : List hnode :=
  merge_sort (fun a b => compare_freq a.data b.data) l

/-- One iteration of the `while (list_size(list) > 1)` loop of `build_tree`:
remove the two front roots, make the first the left child and the second the
right child of a new internal node whose `calloc`ed data holds symbol 0 and
the sum of the children's frequencies, reinsert that node at the front and
re-sort. -/
def build_tree_step : List hnode → List hnode
  | t1 :: t2 :: rest =>
    sort_nodes (hnode.node ⟨0, t1.data.freq + t2.data.freq⟩ t1 t2 :: rest)
  | l => l

/-- The `while (list_size(list) > 1)` loop of `build_tree`, with an explicit
iteration bound.  Each iteration removes two roots and inserts one, so the
initial list length always bounds the number of iterations; `build_tree`
supplies exactly that bound. -/
def build_tree_go : Nat → List hnode → List hnode
  | 0, l => l
  | fuel + 1, l =>
    match l with
    | t1 :: t2 :: rest =>
      build_tree_go fuel
        (sort_nodes (hnode.node ⟨0, t1.data.freq + t2.data.freq⟩ t1 t2 :: rest))
    | l => l

/-- `build_tree` from huff.c: greedily merge the two lowest-frequency roots
until at most one root remains. -/
def build_tree (l : List hnode) : List hnode :=
  build_tree_go l.length l

/-- The `huffman_codes_t` struct of huff.c: a symbol, its code as a bit
array (each element 0 or 1), and the stored code length. -/
structure hcode where
  symbol : Nat
  code : List Nat
  code_len : Nat
deriving DecidableEq, Repr

/-- `build_codes_rec` from huff.c: depth-first traversal accumulating the
path (0 on a left edge, 1 on a right edge); a childless node records its
symbol with the accumulated path as code and the path length as code
length. -/
def build_codes_rec : hnode → List Nat → List hcode
  | .leaf d, path => [⟨d.sym, path, path.length⟩]
  | .node _ l r, path =>
    build_codes_rec l (path ++ [0]) ++ build_codes_rec r (path ++ [1])

/-- `build_codes` from huff.c: traverse from the root with an empty path. -/
def build_codes (root : hnode) : List hcode :=
  build_codes_rec root []

/-- The code-table lookup `while (codes[i].symbol != sym) i++` of
`huffman_encode`: first entry with the requested symbol, `none` when the
scan would run past the table (undefined behaviour in C). -/
def find_code (codes : List hcode) (s : Nat) : Option hcode :=
  codes.find? (fun c => c.symbol == s)

/-- The bit-setting loop of `huffman_encode`: for each 1 bit of the code,
OR `1UL << (63 - (j + buffer_size))` into the 64-bit accumulator.  `pos`
carries `j + buffer_size`. -/
def set_bits : List Nat → Nat → Nat → Nat
  | [], _, buf => buf
  | b :: rest, pos, buf =>
    set_bits rest (pos + 1) (if b = 1 then buf ||| 2 ^ (63 - pos) else buf)

/-- The `while (buffer_size >= 8)` flush of `huffman_encode`: emit the top
byte `bit_buffer >> 56`, shift the 64-bit buffer left by 8, and drop 8 from
the bit count. -/
def drain (buf n : Nat) : List Nat × Nat × Nat :=
  if 8 ≤ n then
    let r := drain (buf * 256 % 2 ^ 64) (n - 8)
    (buf / 2 ^ 56 :: r.1, r.2)
  else ([], buf, n)
termination_by n
decreasing_by omega

/-- The `while (!feof(fpt_in))` loop of `huffman_encode` over the effective
symbol stream (which, because EOF is only detected one `fread` late,
re-processes the final input symbol once).  After the loop the remaining
odd bits are flushed as one final byte, zero-padded low. -/
def encode_loop (codes : List hcode) : List Nat → Nat → Nat → List Nat → Option (List Nat)
  | [], buf, _, out => some (out ++ [buf / 2 ^ 56])
  | s :: rest, buf, n, out =>
    match find_code codes s with
    | none => none
    | some c =>
      let buf1 := set_bits (c.code.take c.code_len) n buf
      let r := drain buf1 (n + c.code_len)
      encode_loop codes rest r.2.1 r.2.2 (out ++ r.1)

/-- `huffman_encode` from huff.c.  On empty input the first loop iteration
reads an uninitialized symbol (undefined behaviour), hence `none`; on a
nonempty input the failing `fread` of the EOF iteration leaves the last
symbol in place, so the loop encodes `input ++ [input.getLastD 0]`. -/
def huffman_encode (codes : List hcode) (input : List Nat) : Option (List Nat) :=
  match input with
  | [] => none
  | _ :: _ => encode_loop codes (input ++ [input.getLastD 0]) 0 0 []

/-- The inner tree walk of `huffman_decode`: consume one bit per edge
(0 left, 1 right), refilling the one-byte buffer from the stream whenever
bit 0 has been used.  A failing `fread` leaves the buffer unchanged and
raises the EOF flag, and the walk keeps consuming the stale bits. -/
def walk : hnode → Nat → Nat → List Nat → Bool → data_t × Nat × Nat × List Nat × Bool
  | .leaf d, buf, ptr, rest, eof => (d, buf, ptr, rest, eof)
  | .node _ lc rc, buf, ptr, rest, eof =>
    let bit : Nat := if buf &&& 2 ^ ptr ≠ 0 then 1 else 0
    let nxt := if bit = 0 then lc else rc
    if ptr = 0 then
      match rest with
      | [] => walk nxt buf 7 [] true
      | b2 :: rest2 => walk nxt b2 7 rest2 eof
    else walk nxt buf (ptr - 1) rest eof
termination_by t _ _ _ _ => sizeOf t
decreasing_by
  all_goals show sizeOf _ < sizeOf (hnode.node _ lc rc)
  all_goals split
  all_goals simp
  all_goals omega

/-- The outer `while (!feof(fpt_in))` loop of `huffman_decode`, with fuel:
walk the tree once per iteration and emit the reached symbol while fewer
than `len` symbols have been produced.  The C loop has no other exit, so a
single-leaf tree (which consumes no bits and never reads) never terminates;
exhausted fuel yields `none`. -/
def decode_loop : Nat → hnode → Nat → Nat → Nat → List Nat → Bool → Nat → List Nat → Option (List Nat)
  | 0, _, _, _, _, _, _, _, _ => none
  | fuel + 1, root, len, buf, ptr, rest, eof, cnt, out =>
    if eof then some out
    else
      match walk root buf ptr rest eof with
      | (d, buf2, ptr2, rest2, eof2) =>
        if cnt < len then
          decode_loop fuel root len buf2 ptr2 rest2 eof2 (cnt + 1) (out ++ [d.sym])
        else decode_loop fuel root len buf2 ptr2 rest2 eof2 cnt out

/-- `huffman_decode` from huff.c: prime the one-byte buffer (an empty
bitstream raises EOF immediately and the loop never runs), then iterate. -/
def huffman_decode (fuel : Nat) (root : hnode) (len : Nat) (bytes : List Nat) : Option (List Nat) :=
  match bytes with
  | [] => some []
  | b :: rest => decode_loop fuel root len b 7 rest false 0 []

/-- `huffman_compress` from huff.c: count frequencies, sort, store the
header, build the tree and codes, and append the encoded bitstream. -/
def huffman_compress (input : List Nat) : Option (List Nat) :=
  let r := calc_freq input
  let sorted := list_sort r.1
  let header := store_freq_table sorted r.2
  match build_tree (sorted.map hnode.leaf) with
  | [root] =>
    (huffman_encode (build_codes root) input).map (fun body => header ++ body)
  | _ => none

/-- `huffman_decompress` from huff.c: parse the header, rebuild the tree
from the recovered sorted collection, and decode the bitstream (with fuel
for the decoder loop). -/
def huffman_decompress (fuel : Nat) (archive : List Nat) : Option (List Nat) :=
  match read_freq_table archive with
  | some (l, len, rest) =>
    match build_tree (l.map hnode.leaf) with
    | [root] => huffman_decode fuel root len rest
    | _ => none
  | none => none

/-- Value of a bit string read most-significant-bit first (a list element
is the bit 1 exactly when it equals 1, as in the C comparison). -/
def natOfBits (l : List Nat) : Nat :=
  l.foldl (fun a b => 2 * a + (if b = 1 then 1 else 0)) 0

/-- MSB-first byte packing of a bit string: every full 8-bit chunk becomes
one byte, and the final partial chunk (possibly empty) is flushed as one
byte zero-padded in its low-order bits. -/
def packBits (bits : List Nat) : List Nat :=
  if _h : 8 ≤ bits.length then
    natOfBits (bits.take 8) :: packBits (bits.drop 8)
  else [natOfBits bits * 2 ^ (8 - bits.length)]
termination_by bits.length
decreasing_by simp [List.length_drop]; omega

/-- The full 8-bit chunks of a bit string, as bytes. -/
def packFull (bits : List Nat) : List Nat :=
  if _h : 8 ≤ bits.length then
    natOfBits (bits.take 8) :: packFull (bits.drop 8)
  else []
termination_by bits.length
decreasing_by simp [List.length_drop]; omega

/-- Concatenated code bits of a symbol stream under a code table (a symbol
missing from the table contributes nothing; the theorems below always
require the table to cover the stream). -/
def code_bits (codes : List hcode) : List Nat → List Nat
  | [] => []
  | s :: rest =>
    (match find_code codes s with
     | some c => c.code.take c.code_len
     | none => []) ++ code_bits codes rest

/-- The header bytes of an entry list: symbol byte plus 4-byte frequency,
in list order. -/
def entries_bytes : List data_t → List Nat
  | [] => []
  | d :: rest => (d.sym :: le4 d.freq) ++ entries_bytes rest

/-- Modelled from the spec: the header-entry order the specification
asserts, namely descending frequency with ties broken by ascending symbol
value.  Used only to compare the specified order with the implemented
one. -/
def spec_desc_order (l : List data_t) : Prop :=
  List.Pairwise (fun a b => b.freq < a.freq ∨ (a.freq = b.freq ∧ a.sym ≤ b.sym)) l

instance : DecidablePred spec_desc_order := fun l => by
  unfold spec_desc_order; infer_instance

/-- The ascending order `list_sort` actually establishes: by frequency,
ties by symbol value. -/
def asc_order (a b : data_t) : Prop :=
  a.freq < b.freq ∨ (a.freq = b.freq ∧ a.sym ≤ b.sym)

instance : DecidableRel asc_order := fun a b => by
  unfold asc_order; infer_instance

/-- Total Huffman code bit count of a symbol stream, as the specification
counts it: the sum over input symbols of their code lengths. -/
def total_code_bits (codes : List hcode) (syms : List Nat) : Nat :=
  (code_bits codes syms).length

/-! ## Properties of the merge sort of list.c -/

theorem merge_perm (cmp : α → α → Int) :
    ∀ l r : List α, (merge cmp l r).Perm (l ++ r) := by
  intro l r
  induction l, r using merge.induct cmp with
  | case1 r => simp [merge]
  | case2 l h => simp [merge]
  | case3 a l b r h ih =>
    simp only [merge, if_pos h]
    exact (ih.cons a).trans (List.Perm.refl _)
  | case4 a l b r h ih =>
    simp only [merge, if_neg h]
    exact (ih.cons b).trans List.perm_middle.symm

theorem merge_sort_perm (cmp : α → α → Int) (l : List α) :
    (merge_sort cmp l).Perm l := by
  induction l using merge_sort.induct cmp with
  | case1 l h => rw [merge_sort, dif_pos h]
  | case2 l h ih1 ih2 =>
    rw [merge_sort, dif_neg h]
    exact ((merge_perm cmp _ _).trans (ih1.append ih2)).trans
      (by rw [List.take_append_drop])

theorem merge_sort_length (cmp : α → α → Int) (l : List α) :
    (merge_sort cmp l).length = l.length :=
  (merge_sort_perm cmp l).length_eq

theorem mem_merge {cmp : α → α → Int} {x : α} {l r : List α} :
    x ∈ merge cmp l r ↔ x ∈ l ∨ x ∈ r := by
  rw [(merge_perm cmp l r).mem_iff, List.mem_append]

/-- Sortedness of the merge phase: the output is pairwise ordered by the
comparator's not-lower relation, provided the comparator is total and
transitive in that sense. -/
theorem merge_pairwise {cmp : α → α → Int}
    (htot : ∀ a b, cmp a b = -1 → cmp b a ≠ -1)
    (htrans : ∀ a b c, cmp a b ≠ -1 → cmp b c ≠ -1 → cmp a c ≠ -1) :
    ∀ l r : List α, l.Pairwise (cmp · · ≠ -1) → r.Pairwise (cmp · · ≠ -1) →
      (merge cmp l r).Pairwise (cmp · · ≠ -1) := by
  intro l r
  induction l, r using merge.induct cmp with
  | case1 r => simp [merge]
  | case2 l h => simp [merge]
  | case3 a l b r h ih =>
    intro hl hr
    simp only [merge, if_pos h]
    rw [List.pairwise_cons] at hl ⊢
    refine ⟨?_, ih hl.2 hr⟩
    intro x hx
    rcases mem_merge.mp hx with hx | hx
    · exact hl.1 x hx
    · rcases List.mem_cons.mp hx with rfl | hx
      · exact h
      · exact htrans a b x h ((List.pairwise_cons.mp hr).1 x hx)
  | case4 a l b r h ih =>
    intro hl hr
    simp only [merge, if_neg h]
    rw [List.pairwise_cons] at hr ⊢
    have hba : cmp b a ≠ -1 := htot a b (by omega)
    refine ⟨?_, ih hl hr.2⟩
    intro x hx
    rcases mem_merge.mp hx with hx | hx
    · rcases List.mem_cons.mp hx with rfl | hx
      · exact hba
      · exact htrans b a x hba ((List.pairwise_cons.mp hl).1 x hx)
    · exact hr.1 x hx

theorem merge_sort_pairwise {cmp : α → α → Int}
    (htot : ∀ a b, cmp a b = -1 → cmp b a ≠ -1)
    (htrans : ∀ a b c, cmp a b ≠ -1 → cmp b c ≠ -1 → cmp a c ≠ -1)
    (l : List α) : (merge_sort cmp l).Pairwise (cmp · · ≠ -1) := by
  induction l using merge_sort.induct cmp with
  | case1 l h =>
    rw [merge_sort, dif_pos h]
    match l, h with
    | [], _ => exact List.Pairwise.nil
    | [a], _ => simp
  | case2 l h ih1 ih2 =>
    rw [merge_sort, dif_neg h]
    exact merge_pairwise htot htrans _ _ ih1 ih2

/-- `compare_freq` never reports both orders lower. -/
theorem compare_freq_total (a b : data_t) :
    compare_freq a b = -1 → compare_freq b a ≠ -1 := by
  intro h2
  unfold compare_freq at h2 ⊢
  split_ifs at h2 ⊢ <;> omega

/-- The not-lower relation of `compare_freq` is ascending frequency with
ties broken by ascending symbol. -/
theorem compare_freq_ne_iff (a b : data_t) :
    compare_freq a b ≠ -1 ↔ asc_order a b := by
  unfold compare_freq asc_order
  split_ifs with h1 h2 h3 h4 <;> simp_all <;> omega

theorem compare_freq_trans (a b c : data_t) :
    compare_freq a b ≠ -1 → compare_freq b c ≠ -1 → compare_freq a c ≠ -1 := by
  rw [compare_freq_ne_iff, compare_freq_ne_iff, compare_freq_ne_iff]
  unfold asc_order
  omega

theorem list_sort_perm (l : List data_t) : (list_sort l).Perm l :=
  merge_sort_perm compare_freq l

theorem list_sort_pairwise (l : List data_t) :
    (list_sort l).Pairwise asc_order :=
  (merge_sort_pairwise compare_freq_total compare_freq_trans l).imp
    (fun h => (compare_freq_ne_iff _ _).mp h)

theorem store_freq_table_eq (l : List data_t) (len : Nat) :
    store_freq_table l len = entries_bytes l ++ (0 :: le4 0) ++ le4 len := by
  induction l with
  | nil => rfl
  | cons d rest ih => simp [store_freq_table, entries_bytes, ih]

/-- Claim C6 counterexample: the sorted collection that `store_freq_table`
writes is in ascending-frequency order, not the descending-frequency order
the claim states.  For the collection with entries (symbol 1, frequency 5)
and (symbol 2, frequency 1), the header stores the frequency-1 entry first,
so the written order is not descending by frequency. -/
theorem c6_counterexample :
    list_sort [⟨1, 5⟩, ⟨2, 1⟩] = [⟨2, 1⟩, ⟨1, 5⟩]
    ∧ store_freq_table (list_sort [⟨1, 5⟩, ⟨2, 1⟩]) 6
      = [2, 1, 0, 0, 0, 1, 5, 0, 0, 0, 0, 0, 0, 0, 0, 6, 0, 0, 0]
    ∧ ¬ spec_desc_order (list_sort [⟨1, 5⟩, ⟨2, 1⟩]) := by
  have hs : list_sort [⟨1, 5⟩, ⟨2, 1⟩] = [⟨2, 1⟩, ⟨1, 5⟩] := by
    simp [list_sort, merge_sort, merge, compare_freq]
  refine ⟨hs, ?_, ?_⟩
  · rw [hs]; rfl
  · rw [hs]; decide

/-- Claim C6 (amended): the frequency-table entries in the archive header
are written one per distinct symbol in ascending-frequency order, with
equal frequencies broken by ascending symbol value — the order produced by
sorting the symbol collection. -/
theorem c6_header_order (l : List data_t) (len : Nat) :
    (list_sort l).Perm l
    ∧ (list_sort l).Pairwise asc_order
    ∧ store_freq_table (list_sort l) len
      = entries_bytes (list_sort l) ++ (0 :: le4 0) ++ le4 len :=
  ⟨list_sort_perm l, list_sort_pairwise l, store_freq_table_eq _ len⟩

/-- Claim C9: on a list of size 0, `list_remove` with a NULL iterator
returns NULL and leaves the list unchanged — size stays 0 and the head and
tail stay NULL. -/
theorem c9_list_remove_empty (l : List data_t) (h : l.length = 0) :
    list_remove l none = (none, l)
    ∧ (list_remove l none).2.length = 0
    ∧ l.head? = none ∧ l.getLast? = none := by
  match l, h with
  | [], _ => exact ⟨rfl, rfl, rfl, rfl⟩

theorem c9_list_remove_empty_witness :
    ([] : List data_t).length = 0
    ∧ (list_remove ([] : List data_t) none = (none, [])
       ∧ (list_remove ([] : List data_t) none).2.length = 0
       ∧ ([] : List data_t).head? = none ∧ ([] : List data_t).getLast? = none) :=
  ⟨rfl, c9_list_remove_empty [] rfl⟩

/-- Claim C10: `list_sort` preserves the contents of the collection as a
multiset — the entries after sorting are a permutation of the entries
before, and the list size is unchanged. -/
theorem c10_list_sort_perm (l : List data_t) :
    (list_sort l).Perm l ∧ (list_sort l).length = l.length :=
  ⟨list_sort_perm l, merge_sort_length compare_freq l⟩

/-! ## Properties of build_tree -/

theorem asc_order_freq_le {a b : data_t} (h : asc_order a b) :
    a.freq ≤ b.freq := by
  unfold asc_order at h; omega

theorem sort_nodes_length (l : List hnode) :
    (sort_nodes l).length = l.length :=
  merge_sort_length _ l

theorem build_tree_step_length (t1 t2 : hnode) (rest : List hnode) :
    (build_tree_step (t1 :: t2 :: rest)).length = rest.length + 1 := by
  simp [build_tree_step, sort_nodes_length]

theorem build_tree_go_length (fuel : Nat) :
    ∀ l : List hnode, 1 ≤ l.length → l.length ≤ fuel + 1 →
      (build_tree_go fuel l).length = 1 := by
  induction fuel with
  | zero =>
    intro l h1 h2
    have : l.length = 1 := by omega
    simp [build_tree_go, this]
  | succ fuel ih =>
    intro l h1 h2
    match l with
    | [t] => rfl
    | t1 :: t2 :: rest =>
      rw [build_tree_go]
      apply ih
      · simp [sort_nodes_length]
      · simp only [sort_nodes_length, List.length_cons]
        simp at h2
        omega

theorem build_tree_length (L : List hnode) (h : 1 ≤ L.length) :
    (build_tree L).length = 1 :=
  build_tree_go_length L.length L h (by omega)

theorem build_tree_unfold (t1 t2 : hnode) (rest : List hnode) :
    build_tree (t1 :: t2 :: rest) = build_tree (build_tree_step (t1 :: t2 :: rest)) := by
  show build_tree_go (rest.length + 2) (t1 :: t2 :: rest) = _
  rw [build_tree_go]
  unfold build_tree
  rw [build_tree_step]
  rw [sort_nodes_length]
  rfl

/-- Claim C7: on a sorted collection of more than one active root, each
tree-construction step removes the two lowest-frequency roots from the
front, makes the first removed root the left child and the second the right
child of a new internal node whose frequency is the sum of its children's
frequencies, reinserts that node and re-sorts; the step shrinks the
collection by exactly one, and the construction loop terminates with
exactly one root. -/
theorem c7_build_tree_step (L : List hnode) (h : 1 < L.length)
    (hs : L.Pairwise (fun a b => asc_order a.data b.data)) :
    (build_tree_step L).length = L.length - 1
    ∧ (∃ t1 t2 rest, L = t1 :: t2 :: rest
        ∧ (∀ t ∈ L, t1.data.freq ≤ t.data.freq)
        ∧ (∀ t ∈ rest, t2.data.freq ≤ t.data.freq)
        ∧ (hnode.node ⟨0, t1.data.freq + t2.data.freq⟩ t1 t2).leftChild = some t1
        ∧ (hnode.node ⟨0, t1.data.freq + t2.data.freq⟩ t1 t2).rightChild = some t2
        ∧ (hnode.node ⟨0, t1.data.freq + t2.data.freq⟩ t1 t2).data.freq
            = t1.data.freq + t2.data.freq
        ∧ build_tree_step L
            = sort_nodes (hnode.node ⟨0, t1.data.freq + t2.data.freq⟩ t1 t2 :: rest)
        ∧ build_tree L = build_tree (build_tree_step L))
    ∧ (build_tree L).length = 1 := by
  match L, h with
  | t1 :: t2 :: rest, _ =>
    rw [List.pairwise_cons] at hs
    have hs2 := List.pairwise_cons.mp hs.2
    refine ⟨by simpa using build_tree_step_length t1 t2 rest, ⟨t1, t2, rest, rfl, ?_, ?_, rfl, rfl, rfl, rfl, build_tree_unfold t1 t2 rest⟩, build_tree_length _ (by simp)⟩
    · intro t ht
      rcases List.mem_cons.mp ht with rfl | ht
      · exact le_refl _
      · exact asc_order_freq_le (hs.1 t ht)
    · intro t ht
      exact asc_order_freq_le (hs2.1 t ht)

theorem c7_build_tree_step_witness :
    (1 < ([hnode.leaf ⟨0, 1⟩, hnode.leaf ⟨1, 2⟩] : List hnode).length)
    ∧ ([hnode.leaf ⟨0, 1⟩, hnode.leaf ⟨1, 2⟩] : List hnode).Pairwise
        (fun a b => asc_order a.data b.data)
    ∧ ((build_tree_step [hnode.leaf ⟨0, 1⟩, hnode.leaf ⟨1, 2⟩]).length
        = ([hnode.leaf ⟨0, 1⟩, hnode.leaf ⟨1, 2⟩] : List hnode).length - 1
      ∧ (∃ t1 t2 rest, ([hnode.leaf ⟨0, 1⟩, hnode.leaf ⟨1, 2⟩] : List hnode) = t1 :: t2 :: rest
          ∧ (∀ t ∈ ([hnode.leaf ⟨0, 1⟩, hnode.leaf ⟨1, 2⟩] : List hnode), t1.data.freq ≤ t.data.freq)
          ∧ (∀ t ∈ rest, t2.data.freq ≤ t.data.freq)
          ∧ (hnode.node ⟨0, t1.data.freq + t2.data.freq⟩ t1 t2).leftChild = some t1
          ∧ (hnode.node ⟨0, t1.data.freq + t2.data.freq⟩ t1 t2).rightChild = some t2
          ∧ (hnode.node ⟨0, t1.data.freq + t2.data.freq⟩ t1 t2).data.freq
              = t1.data.freq + t2.data.freq
          ∧ build_tree_step [hnode.leaf ⟨0, 1⟩, hnode.leaf ⟨1, 2⟩]
              = sort_nodes (hnode.node ⟨0, t1.data.freq + t2.data.freq⟩ t1 t2 :: rest)
          ∧ build_tree [hnode.leaf ⟨0, 1⟩, hnode.leaf ⟨1, 2⟩]
              = build_tree (build_tree_step [hnode.leaf ⟨0, 1⟩, hnode.leaf ⟨1, 2⟩]))
      ∧ (build_tree [hnode.leaf ⟨0, 1⟩, hnode.leaf ⟨1, 2⟩]).length = 1) :=
  ⟨by decide, by decide, c7_build_tree_step _ (by decide) (by decide)⟩

/-! ## The decoder loop never exits on a single-leaf tree -/

theorem decode_loop_leaf (d : data_t) (len : Nat) :
    ∀ (fuel buf ptr cnt : Nat) (rest out : List Nat),
      decode_loop fuel (hnode.leaf d) len buf ptr rest false cnt out = none := by
  intro fuel
  induction fuel with
  | zero => intro buf ptr cnt rest out; rfl
  | succ fuel ih =>
    intro buf ptr cnt rest out
    rw [decode_loop]
    simp only [Bool.false_eq_true, if_false, walk]
    split
    · exact ih buf ptr (cnt + 1) rest (out ++ [d.sym])
    · exact ih buf ptr cnt rest out

/-- Decompression of any archive whose header holds a single table entry
and whose bitstream is nonempty runs the decoder on a single-leaf tree: the
tree walk consumes no bits, `fread` is never reached again, `feof` never
fires, and the `while (!feof)` loop never exits. -/
theorem decompress_single_entry_stuck (archive : List Nat) (s k len b : Nat)
    (rest : List Nat) (fuel : Nat)
    (h : read_freq_table archive = some ([⟨s, k⟩], len, b :: rest)) :
    huffman_decompress fuel archive = none := by
  rw [huffman_decompress, h]
  show (match build_tree [hnode.leaf ⟨s, k⟩] with
        | [root] => huffman_decode fuel root len (b :: rest)
        | _ => none) = none
  have hb : build_tree [hnode.leaf ⟨s, k⟩] = [hnode.leaf ⟨s, k⟩] := rfl
  rw [hb]
  exact decode_loop_leaf _ _ fuel b 7 0 rest []

/-- Claim C1 (code bug): the round-trip fails on the one-byte input 0x00.
Compression succeeds (the `feof` bug tallies symbol 0 once more, storing
frequency 2), but the resulting archive has a single-entry table, so the
rebuilt tree is a single leaf and `huffman_decode` never terminates: for
every fuel bound the decoder loop is still running. -/
theorem c1_roundtrip_diverges :
    huffman_compress [0] = some [0, 2, 0, 0, 0, 0, 0, 0, 0, 0, 1, 0, 0, 0, 0]
    ∧ ∀ fuel, huffman_decompress fuel [0, 2, 0, 0, 0, 0, 0, 0, 0, 0, 1, 0, 0, 0, 0] = none := by
  constructor
  · simp [huffman_compress, calc_freq, calc_freq_loop, tally, incr_first,
      insert_before_tail, list_sort, merge_sort, store_freq_table, le4,
      build_tree, build_tree_go, sort_nodes, build_codes, build_codes_rec,
      huffman_encode, encode_loop, find_code, set_bits, drain]
  · intro fuel
    apply decompress_single_entry_stuck _ 0 2 1 0 [] fuel
    simp [read_freq_table, read_freq_loop, insert_before_tail, list_sort, merge_sort]

/-- Claim C2 (code bug): `calc_freq` on empty input does not produce an
empty table.  The `while (!feof)` loop runs one extra iteration in which
the `calloc`ed symbol 0 is tallied, so the table holds the phantom entry
(symbol 0, frequency 1) — the stored length is 0 as claimed, but the
written header carries one entry rather than zero. -/
theorem c2_empty_input_phantom :
    calc_freq [] = ([⟨0, 1⟩], 0)
    ∧ (calc_freq []).1 ≠ []
    ∧ store_freq_table (list_sort (calc_freq []).1) (calc_freq []).2
        = [0, 1, 0, 0, 0, 0, 0, 0, 0, 0, 0, 0, 0, 0]
    ∧ store_freq_table (list_sort (calc_freq []).1) (calc_freq []).2
        ≠ store_freq_table [] 0 := by
  refine ⟨rfl, by simp [calc_freq, calc_freq_loop, tally, incr_first, insert_before_tail], ?_, ?_⟩
  · show store_freq_table (list_sort [⟨0, 1⟩]) 0 = _
    have h1 : list_sort [⟨0, 1⟩] = [⟨0, 1⟩] := by simp [list_sort, merge_sort]
    rw [h1]; rfl
  · show store_freq_table (list_sort [⟨0, 1⟩]) 0 ≠ _
    have h1 : list_sort [⟨0, 1⟩] = [⟨0, 1⟩] := by simp [list_sort, merge_sort]
    rw [h1]; decide

/-- Claim C3 (code bug): on a single-leaf tree the code generator assigns
code length 0, not the claimed length 1.  `build_codes_rec` reaches the
childless root at level 0 and stores `code_len = level = 0`, an empty
code. -/
theorem c3_single_leaf_code_len :
    build_codes (hnode.leaf ⟨65, 1000⟩) = [⟨65, [], 0⟩]
    ∧ (build_codes (hnode.leaf ⟨65, 1000⟩)).map hcode.code_len = [0]
    ∧ ((build_codes (hnode.leaf ⟨65, 1000⟩)).map hcode.code_len ≠ [1]) := by
  decide

/-- Claim C4 (code bug): the header reader does key the sentinel off the
frequency field — an entry with symbol byte 0x00 and nonzero frequency is
parsed as a real table entry — but an input consisting of 0x00 bytes still
fails to round-trip: its archive has a single-entry table, the rebuilt
tree is a single leaf, and the decoder never terminates. -/
theorem c4_sentinel_by_frequency :
    read_freq_loop [0, 3, 0, 0, 0, 0, 0, 0, 0, 0] [] = some ([⟨0, 3⟩], [])
    ∧ huffman_compress [0, 0] = some [0, 3, 0, 0, 0, 0, 0, 0, 0, 0, 2, 0, 0, 0, 0]
    ∧ ∀ fuel, huffman_decompress fuel [0, 3, 0, 0, 0, 0, 0, 0, 0, 0, 2, 0, 0, 0, 0] = none := by
  refine ⟨by decide, ?_, ?_⟩
  · simp [huffman_compress, calc_freq, calc_freq_loop, tally, incr_first,
      insert_before_tail, list_sort, merge_sort, store_freq_table, le4,
      build_tree, build_tree_go, sort_nodes, build_codes, build_codes_rec,
      huffman_encode, encode_loop, find_code, set_bits, drain]
  · intro fuel
    apply decompress_single_entry_stuck _ 0 3 2 0 [] fuel
    simp [read_freq_table, read_freq_loop, insert_before_tail, list_sort, merge_sort]

/-- Claim C5 (code bug): decoding does not terminate for every archive the
compressor produces.  The archive of the three-byte input 0x00 0x00 0x00
has a single-entry frequency table; its tree is a single leaf, the tree
walk consumes no bits and triggers no reads, so `feof` never fires and the
decoder loop never stops, whatever the fuel. -/
theorem c5_decoder_diverges :
    huffman_compress [0, 0, 0] = some [0, 4, 0, 0, 0, 0, 0, 0, 0, 0, 3, 0, 0, 0, 0]
    ∧ ∀ fuel, huffman_decompress fuel [0, 4, 0, 0, 0, 0, 0, 0, 0, 0, 3, 0, 0, 0, 0] = none := by
  constructor
  · simp [huffman_compress, calc_freq, calc_freq_loop, tally, incr_first,
      insert_before_tail, list_sort, merge_sort, store_freq_table, le4,
      build_tree, build_tree_go, sort_nodes, build_codes, build_codes_rec,
      huffman_encode, encode_loop, find_code, set_bits, drain]
  · intro fuel
    apply decompress_single_entry_stuck _ 0 4 3 0 [] fuel
    simp [read_freq_table, read_freq_loop, insert_before_tail, list_sort, merge_sort]

/-! ## The bit accumulator of huffman_encode -/

theorem natOfBits_from (l : List Nat) :
    ∀ init : Nat,
      l.foldl (fun a b => 2 * a + (if b = 1 then 1 else 0)) init
        = init * 2 ^ l.length + natOfBits l := by
  induction l with
  | nil => intro init; simp [natOfBits]
  | cons b l ih =>
    intro init
    show l.foldl _ (2 * init + _) = _
    rw [ih (2 * init + _)]
    have hb : natOfBits (b :: l)
        = (if b = 1 then 1 else 0) * 2 ^ l.length + natOfBits l := by
      show l.foldl _ (2 * 0 + _) = _
      rw [ih (2 * 0 + _)]
      simp
    rw [hb]
    simp [List.length_cons, pow_succ]
    split <;> ring

theorem natOfBits_cons (b : Nat) (l : List Nat) :
    natOfBits (b :: l) = (if b = 1 then 1 else 0) * 2 ^ l.length + natOfBits l := by
  show l.foldl _ (2 * 0 + _) = _
  rw [natOfBits_from l (2 * 0 + _)]
  simp

theorem natOfBits_append (p q : List Nat) :
    natOfBits (p ++ q) = natOfBits p * 2 ^ q.length + natOfBits q := by
  unfold natOfBits
  rw [List.foldl_append, natOfBits_from]
  rfl

theorem natOfBits_lt (l : List Nat) : natOfBits l < 2 ^ l.length := by
  induction l with
  | nil => simp [natOfBits]
  | cons b l ih =>
    rw [natOfBits_cons]
    have : (2 : Nat) ^ (b :: l).length = 2 ^ l.length + 2 ^ l.length := by
      simp [List.length_cons, pow_succ]; ring
    rw [this]
    split <;> omega

/-- OR-ing a value into the zero low bits of a shifted value is addition:
`1UL << k` lands in a region of `bit_buffer` that is still zero. -/
theorem lor_eq_add (a b k : Nat) (hb : b < 2 ^ k) :
    a * 2 ^ k ||| b = a * 2 ^ k + b := by
  apply Nat.eq_of_testBit_eq
  intro i
  rw [Nat.testBit_lor]
  by_cases hik : i < k
  · have h2 : (2 : Nat) ^ k = 2 ^ (k - i) * 2 ^ i := by
      rw [← pow_add]; congr 1; omega
    have hpos : 0 < (2 : Nat) ^ i := Nat.pos_pow_of_pos i (by norm_num)
    rcases Nat.exists_eq_succ_of_ne_zero (show k - i ≠ 0 by omega) with ⟨j, hj⟩
    have ha : (a * 2 ^ k).testBit i = false := by
      simp only [Nat.testBit_to_div_mod]
      rw [h2, ← Nat.mul_assoc, Nat.mul_div_cancel _ hpos, hj, pow_succ]
      have e : a * (2 ^ j * 2) = a * 2 ^ j * 2 := by ring
      rw [e, Nat.mul_mod_left]
      simp
    have hsum : (a * 2 ^ k + b).testBit i = b.testBit i := by
      simp only [Nat.testBit_to_div_mod]
      have e1 : (a * 2 ^ k + b) / 2 ^ i = b / 2 ^ i + a * 2 ^ (k - i) := by
        rw [h2, ← Nat.mul_assoc, Nat.add_comm, Nat.add_mul_div_right _ _ hpos]
      have e2 : (b / 2 ^ i + a * 2 ^ (k - i)) % 2 = b / 2 ^ i % 2 := by
        rw [hj, pow_succ, ← Nat.mul_assoc, Nat.add_mul_mod_self_right]
      rw [e1, e2]
    rw [ha, hsum, Bool.false_or]
  · have hbi : b.testBit i = false :=
      Nat.testBit_lt_two_pow
        (lt_of_lt_of_le hb (Nat.pow_le_pow_right (by norm_num) (by omega)))
    have h2 : (2 : Nat) ^ i = 2 ^ k * 2 ^ (i - k) := by
      rw [← pow_add]; congr 1; omega
    have hpos : 0 < (2 : Nat) ^ k := Nat.pos_pow_of_pos k (by norm_num)
    have hsum : (a * 2 ^ k + b).testBit i = (a * 2 ^ k).testBit i := by
      simp only [Nat.testBit_to_div_mod]
      have e1 : (a * 2 ^ k + b) / 2 ^ i = a / 2 ^ (i - k) := by
        rw [h2, ← Nat.div_div_eq_div_mul]
        congr 1
        rw [Nat.add_comm, Nat.mul_comm a (2 ^ k),
          Nat.add_mul_div_left _ _ hpos, Nat.div_eq_of_lt hb, Nat.zero_add]
      have e2 : a * 2 ^ k / 2 ^ i = a / 2 ^ (i - k) := by
        rw [h2, ← Nat.div_div_eq_div_mul, Nat.mul_div_cancel _ hpos]
      rw [e1, e2]
    rw [hbi, hsum, Bool.or_false]

/-- Correctness of the bit-setting loop: appending a code to the pending
bits of the MSB-aligned 64-bit accumulator. -/
theorem set_bits_eq :
    ∀ (bits : List Nat) (pos V : Nat),
      pos + bits.length ≤ 64 → V < 2 ^ pos →
      set_bits bits pos (V * 2 ^ (64 - pos))
        = (V * 2 ^ bits.length + natOfBits bits) * 2 ^ (64 - (pos + bits.length)) := by
  intro bits
  induction bits with
  | nil =>
    intro pos V h1 h2
    simp [set_bits, natOfBits]
  | cons b rest ih =>
    intro pos V h1 h2
    have hpos63 : pos ≤ 63 := by
      simp only [List.length_cons] at h1; omega
    rw [set_bits]
    have hstep : (if b = 1 then V * 2 ^ (64 - pos) ||| 2 ^ (63 - pos) else V * 2 ^ (64 - pos))
        = (2 * V + (if b = 1 then 1 else 0)) * 2 ^ (64 - (pos + 1)) := by
      have hsplit : (2 : Nat) ^ (64 - pos) = 2 * 2 ^ (64 - (pos + 1)) := by
        rw [← pow_succ']
        congr 1
        omega
      have h63 : (63 : Nat) - pos = 64 - (pos + 1) := by omega
      have hlt : (2 : Nat) ^ (64 - (pos + 1)) < 2 ^ (64 - pos) := by
        apply Nat.pow_lt_pow_right (by norm_num)
        omega
      split
      · rw [h63, lor_eq_add V (2 ^ (64 - (pos + 1))) (64 - pos) hlt, hsplit]
        ring
      · rw [hsplit]
        ring
    rw [hstep]
    have h1' : (pos + 1) + rest.length ≤ 64 := by
      simp only [List.length_cons] at h1; omega
    have h2' : 2 * V + (if b = 1 then 1 else 0) < 2 ^ (pos + 1) := by
      rw [pow_succ]
      split <;> omega
    rw [ih (pos + 1) _ h1' h2']
    rw [natOfBits_cons]
    have hexp : 64 - (pos + 1 + rest.length) = 64 - (pos + (b :: rest).length) := by
      simp only [List.length_cons]; omega
    rw [hexp]
    congr 1
    simp only [List.length_cons]
    rw [pow_succ]
    ring

/-- Correctness of the byte-flush loop: emitting the full 8-bit chunks of
the pending bits and keeping the remainder MSB-aligned. -/
theorem drain_eq :
    ∀ (n : Nat) (p : List Nat), p.length = n → n ≤ 63 →
      drain (natOfBits p * 2 ^ (64 - n)) n
        = (packFull p, natOfBits (p.drop (8 * (n / 8))) * 2 ^ (64 - n % 8), n % 8) := by
  intro n
  induction n using Nat.strong_induction_on with
  | _ n ih =>
    intro p hp hn
    by_cases h8 : 8 ≤ n
    · have hT8 : (p.take 8).length = 8 := by
        rw [List.length_take]; omega
      have hD : (p.drop 8).length = n - 8 := by
        rw [List.length_drop]; omega
      have hV : natOfBits p = natOfBits (p.take 8) * 2 ^ (n - 8) + natOfBits (p.drop 8) := by
        conv_lhs => rw [← List.take_append_drop 8 p]
        rw [natOfBits_append, hD]
      have hDlt : natOfBits (p.drop 8) < 2 ^ (n - 8) := hD ▸ natOfBits_lt (p.drop 8)
      have h56 : (2 : Nat) ^ (n - 8) * 2 ^ (64 - n) = 2 ^ 56 := by
        rw [← pow_add]; congr 1; omega
      have hbufval : natOfBits p * 2 ^ (64 - n)
          = natOfBits (p.drop 8) * 2 ^ (64 - n) + natOfBits (p.take 8) * 2 ^ 56 := by
        rw [hV, ← h56]; ring
      have hbyte : natOfBits p * 2 ^ (64 - n) / 2 ^ 56 = natOfBits (p.take 8) := by
        rw [hbufval, Nat.add_mul_div_right _ _ (Nat.pos_pow_of_pos 56 (by norm_num))]
        have : natOfBits (p.drop 8) * 2 ^ (64 - n) < 2 ^ 56 := by
          rw [← h56]
          exact Nat.mul_lt_mul_of_lt_of_le hDlt (le_refl _) (Nat.pos_pow_of_pos _ (by norm_num))
        rw [Nat.div_eq_of_lt this, Nat.zero_add]
      have hshift : natOfBits p * 2 ^ (64 - n) * 256 % 2 ^ 64
          = natOfBits (p.drop 8) * 2 ^ (64 - (n - 8)) := by
        have e1 : natOfBits p * 2 ^ (64 - n) * 256
            = natOfBits (p.drop 8) * 2 ^ (64 - (n - 8)) + natOfBits (p.take 8) * 2 ^ 64 := by
          rw [hbufval]
          have e2 : (2 : Nat) ^ (64 - n) * 256 = 2 ^ (64 - (n - 8)) := by
            show (2 : Nat) ^ (64 - n) * 2 ^ 8 = _
            rw [← pow_add]; congr 1; omega
          have e3 : (2 : Nat) ^ 56 * 256 = 2 ^ 64 := by norm_num
          calc (natOfBits (p.drop 8) * 2 ^ (64 - n) + natOfBits (p.take 8) * 2 ^ 56) * 256
              = natOfBits (p.drop 8) * (2 ^ (64 - n) * 256)
                + natOfBits (p.take 8) * (2 ^ 56 * 256) := by ring
            _ = _ := by rw [e2, e3]
        rw [e1, Nat.add_mul_mod_self_right]
        apply Nat.mod_eq_of_lt
        calc natOfBits (p.drop 8) * 2 ^ (64 - (n - 8))
            < 2 ^ (n - 8) * 2 ^ (64 - (n - 8)) :=
              Nat.mul_lt_mul_of_lt_of_le hDlt (le_refl _) (Nat.pos_pow_of_pos _ (by norm_num))
          _ = 2 ^ 64 := by rw [← pow_add]; congr 1; omega
      rw [drain, if_pos h8, hshift,
        ih (n - 8) (by omega) (p.drop 8) hD (by omega)]
      have hpf : packFull p = natOfBits (p.take 8) :: packFull (p.drop 8) := by
        rw [packFull]
        rw [dif_pos (by omega : 8 ≤ p.length)]
      have hdd : (p.drop 8).drop (8 * ((n - 8) / 8)) = p.drop (8 * (n / 8)) := by
        rw [List.drop_drop]
        congr 1
        omega
      have hm8 : (n - 8) % 8 = n % 8 := by omega
      rw [hbyte, hpf, hdd, hm8]
    · rw [drain, if_neg h8]
      have h0 : n / 8 = 0 := by omega
      have hm : n % 8 = n := by omega
      have hpf : packFull p = [] := by
        rw [packFull, dif_neg (by omega : ¬ 8 ≤ p.length)]
      rw [hpf, h0, hm]
      simp

theorem packBits_split_aux (n : Nat) :
    ∀ q r : List Nat, q.length = n →
      packBits (q ++ r) = packFull q ++ packBits (q.drop (8 * (q.length / 8)) ++ r) := by
  induction n using Nat.strong_induction_on with
  | _ n ih =>
    intro q r hq
    by_cases h8 : 8 ≤ q.length
    · have htake : (q ++ r).take 8 = q.take 8 := by
        rw [List.take_append_eq_append_take]
        have : (8 : Nat) - q.length = 0 := by omega
        rw [this]
        simp
      have hdrop : (q ++ r).drop 8 = q.drop 8 ++ r := by
        rw [List.drop_append_eq_append_drop]
        have : (8 : Nat) - q.length = 0 := by omega
        rw [this]
        simp
      have hlen : 8 ≤ (q ++ r).length := by
        rw [List.length_append]; omega
      rw [packBits, dif_pos hlen, htake, hdrop]
      have hql : (q.drop 8).length < q.length := by
        rw [List.length_drop]; omega
      rw [ih (q.drop 8).length (by omega) (q.drop 8) r rfl]
      have hpf : packFull q = natOfBits (q.take 8) :: packFull (q.drop 8) := by
        rw [packFull, dif_pos h8]
      have hdd : (q.drop 8).drop (8 * ((q.drop 8).length / 8)) = q.drop (8 * (q.length / 8)) := by
        rw [List.drop_drop, List.length_drop]
        congr 1
        omega
      rw [hpf, hdd]
      simp
    · have hpf : packFull q = [] := by
        rw [packFull, dif_neg h8]
      have h0 : q.length / 8 = 0 := by omega
      rw [hpf, h0]
      simp

theorem packBits_split (q r : List Nat) :
    packBits (q ++ r) = packFull q ++ packBits (q.drop (8 * (q.length / 8)) ++ r) :=
  packBits_split_aux q.length q r rfl

theorem packBits_length_aux (n : Nat) :
    ∀ bits : List Nat, bits.length = n → (packBits bits).length = bits.length / 8 + 1 := by
  induction n using Nat.strong_induction_on with
  | _ n ih =>
    intro bits hb
    by_cases h8 : 8 ≤ bits.length
    · rw [packBits, dif_pos h8]
      have hd : (bits.drop 8).length = bits.length - 8 := by
        rw [List.length_drop]
      rw [List.length_cons, ih (bits.drop 8).length (by omega) (bits.drop 8) rfl, hd]
      omega
    · rw [packBits, dif_neg h8]
      simp only [List.length_singleton]
      omega

theorem packBits_length (bits : List Nat) :
    (packBits bits).length = bits.length / 8 + 1 :=
  packBits_length_aux bits.length bits rfl

/-- Correctness of the encoder loop: starting from pending bits `p` held
MSB-aligned in the 64-bit accumulator, the loop emits exactly the MSB-first
byte packing of the pending bits followed by the codes of the remaining
symbols, with the final flush byte zero-padded low. -/
theorem encode_loop_eq (codes : List hcode)
    (hlen : ∀ c ∈ codes, c.code_len ≤ c.code.length ∧ c.code_len ≤ 56) :
    ∀ (syms : List Nat) (p out : List Nat),
      p.length ≤ 7 →
      (∀ s ∈ syms, (find_code codes s).isSome) →
      encode_loop codes syms (natOfBits p * 2 ^ (64 - p.length)) p.length out
        = some (out ++ packBits (p ++ code_bits codes syms)) := by
  intro syms
  induction syms with
  | nil =>
    intro p out hp _
    rw [encode_loop]
    have hflush : natOfBits p * 2 ^ (64 - p.length) / 2 ^ 56
        = natOfBits p * 2 ^ (8 - p.length) := by
      have h1 : (2 : Nat) ^ (64 - p.length) = 2 ^ (8 - p.length) * 2 ^ 56 := by
        rw [← pow_add]; congr 1; omega
      rw [h1, ← Nat.mul_assoc, Nat.mul_div_cancel _ (Nat.pos_pow_of_pos 56 (by norm_num))]
    have hpb : packBits (p ++ code_bits codes []) = [natOfBits p * 2 ^ (8 - p.length)] := by
      show packBits (p ++ []) = _
      rw [List.append_nil, packBits, dif_neg (by omega)]
    rw [hflush, hpb]
  | cons s rest ih =>
    intro p out hp hcov
    obtain ⟨c, hc⟩ : ∃ c, find_code codes s = some c :=
      Option.isSome_iff_exists.mp (hcov s (List.mem_cons_self s rest))
    obtain ⟨hc1, hc2⟩ := hlen c (List.mem_of_find?_eq_some hc)
    have htl : (c.code.take c.code_len).length = c.code_len := by
      rw [List.length_take]; omega
    rw [encode_loop, hc]
    dsimp only
    have hsb := set_bits_eq (c.code.take c.code_len) p.length (natOfBits p)
      (by rw [htl]; omega) (natOfBits_lt p)
    rw [hsb]
    have hq : (natOfBits p * 2 ^ (c.code.take c.code_len).length
          + natOfBits (c.code.take c.code_len))
        = natOfBits (p ++ c.code.take c.code_len) := (natOfBits_append _ _).symm
    have hexp : 64 - (p.length + (c.code.take c.code_len).length)
        = 64 - (p.length + c.code_len) := by rw [htl]
    rw [hq, hexp]
    have hlen2 : (p ++ c.code.take c.code_len).length = p.length + c.code_len := by
      rw [List.length_append, htl]
    have hd := drain_eq (p.length + c.code_len) (p ++ c.code.take c.code_len)
      hlen2 (by omega)
    rw [hd]
    have hP3 : ((p ++ c.code.take c.code_len).drop
        (8 * ((p.length + c.code_len) / 8))).length = (p.length + c.code_len) % 8 := by
      rw [List.length_drop, hlen2]
      omega
    have hrec := ih ((p ++ c.code.take c.code_len).drop (8 * ((p.length + c.code_len) / 8)))
      (out ++ packFull (p ++ c.code.take c.code_len))
      (by rw [hP3]; omega)
      (fun s hs => hcov s (List.mem_cons_of_mem _ hs))
    rw [hP3] at hrec
    rw [hrec]
    have hsplit2 : packBits (p ++ code_bits codes (s :: rest))
        = packFull (p ++ c.code.take c.code_len)
          ++ packBits ((p ++ c.code.take c.code_len).drop
              (8 * ((p.length + c.code_len) / 8)) ++ code_bits codes rest) := by
      have hcb : code_bits codes (s :: rest)
          = c.code.take c.code_len ++ code_bits codes rest := by
        rw [code_bits, hc]
      rw [hcb, ← List.append_assoc, packBits_split, hlen2]
    rw [hsplit2, List.append_assoc]

/-- Claim C8 counterexample: with the two one-bit codes 0 ↦ 0 and 1 ↦ 1
and the seven-symbol input 0,1,0,1,0,1,0, the sum of the input symbols'
code lengths is 7, so the claim predicts ceil(7/8) = 1 bitstream byte; the
encoder writes 2 bytes (it re-encodes the final symbol once when `feof`
fires late, and it always flushes a final byte). -/
theorem c8_counterexample :
    huffman_encode [⟨0, [0], 1⟩, ⟨1, [1], 1⟩] [0, 1, 0, 1, 0, 1, 0] = some [84, 0]
    ∧ total_code_bits [⟨0, [0], 1⟩, ⟨1, [1], 1⟩] [0, 1, 0, 1, 0, 1, 0] = 7
    ∧ ([84, 0] : List Nat).length
        ≠ (total_code_bits [⟨0, [0], 1⟩, ⟨1, [1], 1⟩] [0, 1, 0, 1, 0, 1, 0] + 7) / 8 := by
  refine ⟨?_, by decide, by decide⟩
  simp [huffman_encode, encode_loop, find_code, set_bits, drain]

theorem natOfBits_nil : natOfBits [] = 0 := rfl

/-- Claim C8 (amended): for every nonempty input covered by the code
table, the encoder emits exactly the MSB-first byte packing of the
concatenated code bits of the input followed by one extra copy of the last
input symbol's code (the late `feof` detection re-encodes the final
symbol); the packing flushes a final byte zero-padded in its low-order
bits even when no bits remain, so the bitstream occupies
`total_bits / 8 + 1` bytes, where `total_bits` counts that duplicated
final code. -/
theorem c8_encoder_pack (codes : List hcode) (S : List Nat)
    (hS : S ≠ [])
    (hcov : ∀ s ∈ S, (find_code codes s).isSome)
    (hlen : ∀ c ∈ codes, c.code_len ≤ c.code.length ∧ c.code_len ≤ 56) :
    huffman_encode codes S = some (packBits (code_bits codes (S ++ [S.getLastD 0])))
    ∧ (packBits (code_bits codes (S ++ [S.getLastD 0]))).length
        = total_code_bits codes (S ++ [S.getLastD 0]) / 8 + 1 := by
  constructor
  · match S, hS with
    | b :: rest, _ =>
      rw [huffman_encode]
      have hcov2 : ∀ s ∈ (b :: rest) ++ [(b :: rest).getLastD 0],
          (find_code codes s).isSome := by
        intro s hs
        rcases List.mem_append.mp hs with hs | hs
        · exact hcov s hs
        · have hm : (b :: rest).getLastD 0 ∈ b :: rest := by
            rw [List.getLastD_cons]
            exact List.getLastD_mem_cons rest b
          rcases List.mem_singleton.mp hs with rfl
          exact hcov _ hm
      have h0 := encode_loop_eq codes hlen ((b :: rest) ++ [(b :: rest).getLastD 0])
        [] [] (by simp) hcov2
      simp only [natOfBits_nil, List.length_nil, Nat.zero_mul, List.nil_append] at h0
      rw [List.getLastD_cons] at h0 ⊢
      exact h0
  · rw [packBits_length]
    rfl

theorem c8_encoder_pack_witness :
    (([0, 1] : List Nat) ≠ []
      ∧ (∀ s ∈ ([0, 1] : List Nat), (find_code [⟨0, [0], 1⟩, ⟨1, [1], 1⟩] s).isSome)
      ∧ (∀ c ∈ ([⟨0, [0], 1⟩, ⟨1, [1], 1⟩] : List hcode),
          c.code_len ≤ c.code.length ∧ c.code_len ≤ 56))
    ∧ (huffman_encode [⟨0, [0], 1⟩, ⟨1, [1], 1⟩] [0, 1]
        = some (packBits (code_bits [⟨0, [0], 1⟩, ⟨1, [1], 1⟩]
            (([0, 1] : List Nat) ++ [([0, 1] : List Nat).getLastD 0])))
      ∧ (packBits (code_bits [⟨0, [0], 1⟩, ⟨1, [1], 1⟩]
            (([0, 1] : List Nat) ++ [([0, 1] : List Nat).getLastD 0]))).length
          = total_code_bits [⟨0, [0], 1⟩, ⟨1, [1], 1⟩]
              (([0, 1] : List Nat) ++ [([0, 1] : List Nat).getLastD 0]) / 8 + 1) :=
  ⟨⟨by decide, by decide, by decide⟩,
    c8_encoder_pack [⟨0, [0], 1⟩, ⟨1, [1], 1⟩] [0, 1] (by decide) (by decide) (by decide)⟩
